import Mathlib

/-!
Shallow embedding of the comment-stripping scanner of `minicss.py`.

The scanner reads one character at a time from a source, keeps a
one-character-of-lookahead peek that skips "whitespace", and writes the
characters that are not inside a block comment to a sink, collapsing
consecutive line-break characters.

Two models are developed, both translated from the Python source:

* a list model: the main loop `minimize_to` becomes `goFull`, acting on the
  list of characters not yet read; the peek `get_next_char` becomes
  `peekSig`, and the delimiter drain loops become `drain`.  `drain` returns
  `none` when the sought delimiter is absent, which models the fact that the
  Python loop `while(f.read(1) != t): continue` never stops once the file is
  exhausted; `goFull` propagates that `none`.
* a cursored-file model for the peek itself: `FileState` is a character
  list plus a cursor, `fread1` is `file.read(1)`, and `getNextChar` is the
  `tell`/scan/`seek` sequence of `get_next_char`.

A point of care in the translation: the Python regular expressions
`[\r|\t|\n|\f| |]` (whitespace test of `get_next_char`) and `[\r|\n]`
(line-break test of `minimize_to`) are character classes, so the bar
characters in them are literal members of the class, not alternation.
`isSkipChar` and `isBreakChar` therefore contain the bar character.
-/

namespace MiniCSS

/-- The set of characters matched by the regex class written in the source
as CR, TAB, LF, FF and SPACE separated by bars inside a character class:
because the bars are literal inside a class, the bar character itself is
also a member.  Used by the peek of `get_next_char`. -/
def isSkipChar (c : Char) : Bool :=
  c = '\r' || c = '|' || c = '\t' || c = '\n' || c = '\x0c' || c = ' '

/-- The set of characters matched by the regex class written in the source
as CR and LF separated by a bar inside a character class: again the bar
character is a literal member.  Used by the line-break test of
`minimize_to`. -/
def isBreakChar (c : Char) : Bool :=
  c = '\r' || c = '|' || c = '\n'

/-- List model of `get_next_char`: the first character of `l` that is not
in the skip set, or `none` when the input is exhausted first (Python
returns the empty string there). -/
def peekSig : List Char → Option Char
  | [] => none
  | c :: rest => if isSkipChar c then peekSig rest else some c

/-- List model of the drain loops `while(f.read(1) != t): continue`:
consume characters up to and including the first occurrence of `t` and
return the remainder.  When `t` never occurs the Python loop keeps reading
an exhausted file forever; that divergence is modelled by `none`. -/
def drain (t : Char) : List Char → Option (List Char)
  | [] => none
  | c :: rest => if c = t then some rest else drain t rest

/-- A successful drain consumes at least the delimiter character, so the
remainder is strictly shorter.  Needed for termination of `goFull`. -/
theorem drain_length {t : Char} :
    ∀ {l l2 : List Char}, drain t l = some l2 → l2.length < l.length := by
  intro l
  induction l with
  | nil => intro l2 h; simp [drain] at h
  | cons c rest ih =>
    intro l2 h
    simp only [drain] at h
    by_cases hc : c = t
    · simp only [hc, if_pos rfl] at h
      cases h
      simp [List.length_cons]
    · simp only [if_neg hc] at h
      have := ih h
      simp only [List.length_cons]
      omega

/-- The mutable scan state of `minimize_to`: `in_comment` and
`inner_comment_count` track comment nesting, `last_char_was_newline` is the
truthiness of the flag of the same name (the source stores a regex match
object; only its truthiness is ever used).  The counter is an integer, as
in Python, so that its non-negativity is a fact to prove rather than a
typing artifact. -/
structure ScanState where
  in_comment : Bool
  inner_comment_count : Int
  last_char_was_newline : Bool
deriving DecidableEq, Repr

/-- The main loop of `minimize_to` on the list of characters not yet read.
Returns the characters written to the sink (`none` if a drain loop would
diverge, which `goFull_isSome` shows never happens) paired with the list of
scan states at entry to each loop iteration, in order.  The branch
structure and priority follow the source exactly; the final iteration of
the Python loop, which reads the empty string at end of file and writes
nothing, is the `[]` case. -/
def goFull (s : ScanState) : List Char → Option (List Char) × List ScanState
  | [] => (some [], [s])
  | c :: rest =>
    let n := peekSig rest
    if s.in_comment = false ∧ c = '/' ∧ n = some '*' then
      match h : drain '*' rest with
      | none => (none, [s])
      | some rest2 =>
        let r := goFull { s with in_comment := true } rest2
        (r.1, s :: r.2)
    else if s.in_comment = true ∧ c = '/' ∧ n = some '*' then
      match h : drain '*' rest with
      | none => (none, [s])
      | some rest2 =>
        let r := goFull { s with inner_comment_count := s.inner_comment_count + 1 } rest2
        (r.1, s :: r.2)
    else if s.in_comment = true ∧ c = '*' ∧ n = some '/' then
      let s2 := if s.inner_comment_count > 0
        then { s with inner_comment_count := s.inner_comment_count - 1 }
        else { s with in_comment := false }
      match h : drain '/' rest with
      | none => (none, [s])
      | some rest2 =>
        let r := goFull s2 rest2
        (r.1, s :: r.2)
    else if s.in_comment = false then
      let nl := isBreakChar c
      let s2 := { s with last_char_was_newline := nl }
      let r := goFull s2 rest
      if nl && s.last_char_was_newline then
        (r.1, s :: r.2)
      else
        (Option.map (fun out => c :: out) r.1, s :: r.2)
    else
      let r := goFull s rest
      (r.1, s :: r.2)
termination_by l => l.length
decreasing_by
  all_goals simp only [List.length_cons]
  · exact Nat.lt_succ_of_lt (drain_length h)
  · exact Nat.lt_succ_of_lt (drain_length h)
  · exact Nat.lt_succ_of_lt (drain_length h)
  · exact Nat.lt_succ_self _
  · exact Nat.lt_succ_self _

/-- The initial scan state of `minimize_to`: not in a comment, zero nested
comments, and the last-was-newline flag true so that line breaks at the
very start of the file are suppressed. -/
def stripInit : ScanState := ⟨false, 0, true⟩

/-- The characters `minimize_to` writes to the sink for a given input. -/
def stripRun (l : List Char) : Option (List Char) := (goFull stripInit l).1

/-- The scan states at entry to each main-loop iteration of a run of
`minimize_to` on a given input, starting from the initial state. -/
def stripStates (l : List Char) : List ScanState := (goFull stripInit l).2

/-- The comment nesting depth modelled from the pair
(`in_comment`, `inner_comment_count`): depth 0 is plain text, depth `k+1`
means inside a comment with `k` unmatched inner openers. -/
def inCommentDepth (s : ScanState) : Int :=
  if s.in_comment then s.inner_comment_count + 1 else 0

/-- Absence of comment openers, in the sense the scanner detects them: no
character is a slash whose next significant character (in the sense of the
peek, so skipping the skip set) is a star. -/
def noOpener : List Char → Bool
  | [] => true
  | c :: rest => (if c = '/' then !(peekSig rest == some '*') else true) && noOpener rest

/-- No two adjacent characters are both members of the break class of the
line-break regex. -/
def noConsecBreak : List Char → Bool
  | [] => true
  | [_] => true
  | a :: b :: rest => (!(isBreakChar a && isBreakChar b)) && noConsecBreak (b :: rest)

/-- The first character, when there is one, is not in the break class. -/
def headNotBreak : List Char → Bool
  | [] => true
  | c :: _ => !isBreakChar c

/-- A cursored character file: the contents plus the read position, as used
by `get_next_char` through `tell`, `read(1)` and `seek`. -/
structure FileState where
  content : List Char
  pos : Nat
deriving DecidableEq, Repr

/-- `file.read(1)`: return the character at the cursor and advance, or
`none` (Python: the empty string) at end of file, leaving the cursor
where it is. -/
def fread1 (fs : FileState) : Option Char × FileState :=
  match fs.content.drop fs.pos with
  | [] => (none, fs)
  | c :: _ => (some c, ⟨fs.content, fs.pos + 1⟩)

/-- A successful `read(1)` yields the character at the cursor, advances the
cursor by one, and can only happen strictly before end of file. -/
theorem fread1_some {fs : FileState} {c : Char} {fs2 : FileState}
    (h : fread1 fs = (some c, fs2)) :
    fs2 = ⟨fs.content, fs.pos + 1⟩ ∧
      fs.content.drop fs.pos = c :: fs.content.drop (fs.pos + 1) ∧
      fs.pos < fs.content.length := by
  unfold fread1 at h
  split at h
  · cases h
  · rename_i c2 t hdrop
    cases h
    refine ⟨rfl, ?_, ?_⟩
    · rw [hdrop]
      have ht : (fs.content.drop fs.pos).tail = fs.content.drop (fs.pos + 1) :=
        List.tail_drop fs.content fs.pos
      rw [hdrop] at ht
      simp at ht
      rw [ht]
    · by_contra hge
      push_neg at hge
      rw [List.drop_eq_nil_of_le hge] at hdrop
      cases hdrop

/-- A failed `read(1)` leaves the state unchanged and can only happen at
end of file. -/
theorem fread1_none {fs : FileState} {fs2 : FileState}
    (h : fread1 fs = (none, fs2)) :
    fs2 = fs ∧ fs.content.drop fs.pos = [] := by
  unfold fread1 at h
  split at h
  · rename_i hdrop
    cases h
    exact ⟨rfl, hdrop⟩
  · cases h

/-- The read loop inside `get_next_char`: read characters until end of file
or a character outside the skip set; return that character (or `none`) and
the file state after the loop. -/
def scanLoop (fs : FileState) : Option Char × FileState :=
  match h : fread1 fs with
  | (none, fs2) => (none, fs2)
  | (some c, fs2) => if isSkipChar c then scanLoop fs2 else (some c, fs2)
termination_by fs.content.length - fs.pos
decreasing_by
  obtain ⟨h1, _, h3⟩ := fread1_some h
  rw [h1]
  simp only
  omega

/-- `get_next_char`: remember the cursor with `tell`, run the read loop,
then `seek` back to the remembered position and return the character the
loop found. -/
def getNextChar (fs : FileState) : Option Char × FileState :=
  let orig := fs.pos
  let r := scanLoop fs
  (r.1, ⟨r.2.content, orig⟩)

/-- If the peek sees character `c` ahead, then draining for `c` succeeds:
the characters the peek skipped are all in the skip set and the peek only
returns characters outside it, so the drain meets `c` no later than the
peeked position.  This is why the drain loops of `minimize_to`, entered
only when the peek has seen the delimiter, always stop. -/
theorem peekSig_drain_isSome {c : Char} :
    ∀ {l : List Char}, peekSig l = some c → (drain c l).isSome := by
  intro l
  induction l with
  | nil => intro h; simp [peekSig] at h
  | cons c0 rest ih =>
    intro h
    simp only [peekSig] at h
    by_cases hc0 : c0 = c
    · simp [drain, hc0]
    · by_cases hs : isSkipChar c0
      · rw [if_pos hs] at h
        simp only [drain, if_neg hc0]
        exact ih h
      · rw [if_neg hs] at h
        cases h
        exact absurd rfl hc0

/-- Equation of `goFull` at end of input. -/
theorem goFull_nil (s : ScanState) : goFull s [] = (some [], [s]) := by
  simp [goFull]

/-- Equation of `goFull` on the branch that opens an outermost comment. -/
theorem goFull_open (s : ScanState) (c : Char) (rest rest2 : List Char)
    (h4 : s.in_comment = false) (hc : c = '/') (hn : peekSig rest = some '*')
    (hd : drain '*' rest = some rest2) :
    goFull s (c :: rest) =
      ((goFull { s with in_comment := true } rest2).1,
        s :: (goFull { s with in_comment := true } rest2).2) := by
  rw [goFull]
  rw [if_pos ⟨h4, hc, hn⟩]
  split
  · rename_i heq
    rw [hd] at heq
    cases heq
  · rename_i rest3 heq
    rw [hd] at heq
    cases heq
    rfl

/-- Equation of `goFull` on the branch that opens an inner comment. -/
theorem goFull_inner_open (s : ScanState) (c : Char) (rest rest2 : List Char)
    (h4 : s.in_comment = true) (hc : c = '/') (hn : peekSig rest = some '*')
    (hd : drain '*' rest = some rest2) :
    goFull s (c :: rest) =
      ((goFull { s with inner_comment_count := s.inner_comment_count + 1 } rest2).1,
        s :: (goFull { s with inner_comment_count := s.inner_comment_count + 1 } rest2).2) := by
  rw [goFull]
  rw [if_neg (by simp [h4]), if_pos ⟨h4, hc, hn⟩]
  split
  · rename_i heq
    rw [hd] at heq
    cases heq
  · rename_i rest3 heq
    rw [hd] at heq
    cases heq
    rfl

/-- Equation of `goFull` on the branch that closes a comment level. -/
theorem goFull_close (s : ScanState) (c : Char) (rest rest2 : List Char)
    (h4 : s.in_comment = true) (hc : c = '*') (hn : peekSig rest = some '/')
    (hd : drain '/' rest = some rest2) :
    goFull s (c :: rest) =
      (((goFull (if s.inner_comment_count > 0
          then { s with inner_comment_count := s.inner_comment_count - 1 }
          else { s with in_comment := false }) rest2).1,
        s :: (goFull (if s.inner_comment_count > 0
          then { s with inner_comment_count := s.inner_comment_count - 1 }
          else { s with in_comment := false }) rest2).2)) := by
  rw [goFull]
  rw [if_neg (by simp [h4]), if_neg (by simp [hc]), if_pos ⟨h4, hc, hn⟩]
  simp only []
  split
  · rename_i heq
    rw [hd] at heq
    cases heq
  · rename_i rest3 heq
    rw [hd] at heq
    cases heq
    rfl

/-- Equation of `goFull` on the plain-text branch when the character is
emitted: the character is written and the flag takes its break status. -/
theorem goFull_emit (s : ScanState) (c : Char) (rest : List Char)
    (h4 : s.in_comment = false)
    (hno : ¬(c = '/' ∧ peekSig rest = some '*'))
    (hw : (isBreakChar c && s.last_char_was_newline) = false) :
    goFull s (c :: rest) =
      (Option.map (fun out => c :: out)
          (goFull { s with last_char_was_newline := isBreakChar c } rest).1,
        s :: (goFull { s with last_char_was_newline := isBreakChar c } rest).2) := by
  rw [goFull]
  rw [if_neg (by simp [h4]; intro hf; exact fun hn => hno ⟨hf, hn⟩),
    if_neg (by simp [h4]), if_neg (by simp [h4]), if_pos h4]
  simp only [hw]
  rfl

/-- Equation of `goFull` on the plain-text branch when the character is a
break character following an emitted break: nothing is written, the flag
keeps its (true) break status. -/
theorem goFull_suppress (s : ScanState) (c : Char) (rest : List Char)
    (h4 : s.in_comment = false)
    (hno : ¬(c = '/' ∧ peekSig rest = some '*'))
    (hw : (isBreakChar c && s.last_char_was_newline) = true) :
    goFull s (c :: rest) =
      ((goFull { s with last_char_was_newline := isBreakChar c } rest).1,
        s :: (goFull { s with last_char_was_newline := isBreakChar c } rest).2) := by
  rw [goFull]
  rw [if_neg (by simp [h4]; intro hf; exact fun hn => hno ⟨hf, hn⟩),
    if_neg (by simp [h4]), if_neg (by simp [h4]), if_pos h4]
  simp only [hw]
  rfl

/-- Equation of `goFull` on the in-comment branch where the character is
silently discarded. -/
theorem goFull_discard (s : ScanState) (c : Char) (rest : List Char)
    (h4 : s.in_comment = true)
    (hno1 : ¬(c = '/' ∧ peekSig rest = some '*'))
    (hno2 : ¬(c = '*' ∧ peekSig rest = some '/')) :
    goFull s (c :: rest) = ((goFull s rest).1, s :: (goFull s rest).2) := by
  rw [goFull]
  rw [if_neg (by simp [h4]),
    if_neg (by intro hg; exact hno1 ⟨hg.2.1, hg.2.2⟩),
    if_neg (by intro hg; exact hno2 ⟨hg.2.1, hg.2.2⟩),
    if_neg (by simp [h4])]

/-- The state a run is started in is recorded in its state trace. -/
theorem self_mem_goFull_states (s : ScanState) (l : List Char) :
    s ∈ (goFull s l).2 := by
  cases l with
  | nil => rw [goFull_nil]; simp
  | cons c rest =>
    by_cases hcom : s.in_comment = true
    · by_cases hg1 : c = '/' ∧ peekSig rest = some '*'
      · obtain ⟨rest2, hd⟩ := Option.isSome_iff_exists.mp (peekSig_drain_isSome hg1.2)
        rw [goFull_inner_open s c rest rest2 hcom hg1.1 hg1.2 hd]
        simp
      · by_cases hg2 : c = '*' ∧ peekSig rest = some '/'
        · obtain ⟨rest2, hd⟩ := Option.isSome_iff_exists.mp (peekSig_drain_isSome hg2.2)
          rw [goFull_close s c rest rest2 hcom hg2.1 hg2.2 hd]
          simp
        · rw [goFull_discard s c rest hcom hg1 hg2]
          simp
    · have hcom2 : s.in_comment = false := by simpa using hcom
      by_cases hg1 : c = '/' ∧ peekSig rest = some '*'
      · obtain ⟨rest2, hd⟩ := Option.isSome_iff_exists.mp (peekSig_drain_isSome hg1.2)
        rw [goFull_open s c rest rest2 hcom2 hg1.1 hg1.2 hd]
        simp
      · by_cases hw : (isBreakChar c && s.last_char_was_newline) = true
        · rw [goFull_suppress s c rest hcom2 hg1 hw]
          simp
        · have hw2 : (isBreakChar c && s.last_char_was_newline) = false := by
            simpa using hw
          rw [goFull_emit s c rest hcom2 hg1 hw2]
          simp

/-- Auxiliary form of `goFull_isSome`, with an explicit bound for the
strong induction on the length of the remaining input. -/
theorem goFull_isSome_aux :
    ∀ (n : Nat) (l : List Char), l.length ≤ n → ∀ (s : ScanState),
      ((goFull s l).1).isSome := by
  intro n
  induction n with
  | zero =>
    intro l hl s
    have hnil : l = [] := List.eq_nil_of_length_eq_zero (Nat.le_zero.mp hl)
    subst hnil
    rw [goFull_nil]
    rfl
  | succ n ih =>
    intro l hl s
    cases l with
    | nil => rw [goFull_nil]; rfl
    | cons c rest =>
      have hrest : rest.length ≤ n := by
        simp only [List.length_cons] at hl
        omega
      by_cases hcom : s.in_comment = true
      · by_cases hg1 : c = '/' ∧ peekSig rest = some '*'
        · obtain ⟨rest2, hd⟩ := Option.isSome_iff_exists.mp (peekSig_drain_isSome hg1.2)
          rw [goFull_inner_open s c rest rest2 hcom hg1.1 hg1.2 hd]
          exact ih rest2 (by have := drain_length hd; omega) _
        · by_cases hg2 : c = '*' ∧ peekSig rest = some '/'
          · obtain ⟨rest2, hd⟩ := Option.isSome_iff_exists.mp (peekSig_drain_isSome hg2.2)
            rw [goFull_close s c rest rest2 hcom hg2.1 hg2.2 hd]
            exact ih rest2 (by have := drain_length hd; omega) _
          · rw [goFull_discard s c rest hcom hg1 hg2]
            exact ih rest hrest _
      · have hcom2 : s.in_comment = false := by simpa using hcom
        by_cases hg1 : c = '/' ∧ peekSig rest = some '*'
        · obtain ⟨rest2, hd⟩ := Option.isSome_iff_exists.mp (peekSig_drain_isSome hg1.2)
          rw [goFull_open s c rest rest2 hcom2 hg1.1 hg1.2 hd]
          exact ih rest2 (by have := drain_length hd; omega) _
        · by_cases hw : (isBreakChar c && s.last_char_was_newline) = true
          · rw [goFull_suppress s c rest hcom2 hg1 hw]
            exact ih rest hrest _
          · have hw2 : (isBreakChar c && s.last_char_was_newline) = false := by
              simpa using hw
            rw [goFull_emit s c rest hcom2 hg1 hw2]
            simp only [Option.isSome_map']
            exact ih rest hrest _

/-- Every run of the scanner produces an output: no drain loop ever runs
off the end of the input, because each drain is entered only when the peek
has already seen the sought delimiter ahead. -/
theorem goFull_isSome (s : ScanState) (l : List Char) :
    ((goFull s l).1).isSome :=
  goFull_isSome_aux l.length l (Nat.le_refl _) s

/-- Auxiliary form of the comment-silence lemma, with an explicit bound for
the strong induction on the length of the remaining input. -/
theorem goFull_comment_silent_aux :
    ∀ (n : Nat) (l : List Char), l.length ≤ n → ∀ (s : ScanState),
      s.in_comment = true →
      (∀ s2 ∈ (goFull s l).2, s2.in_comment = true) →
      (goFull s l).1 = some [] := by
  intro n
  induction n with
  | zero =>
    intro l hl s hcom htr
    have hnil : l = [] := List.eq_nil_of_length_eq_zero (Nat.le_zero.mp hl)
    subst hnil
    rw [goFull_nil]
  | succ n ih =>
    intro l hl s hcom htr
    cases l with
    | nil => rw [goFull_nil]
    | cons c rest =>
      have hrest : rest.length ≤ n := by
        simp only [List.length_cons] at hl
        omega
      by_cases hg1 : c = '/' ∧ peekSig rest = some '*'
      · obtain ⟨rest2, hd⟩ := Option.isSome_iff_exists.mp (peekSig_drain_isSome hg1.2)
        rw [goFull_inner_open s c rest rest2 hcom hg1.1 hg1.2 hd] at htr ⊢
        refine ih rest2 (by have := drain_length hd; omega) _ hcom ?_
        intro s2 hs2
        exact htr s2 (List.mem_cons_of_mem _ hs2)
      · by_cases hg2 : c = '*' ∧ peekSig rest = some '/'
        · obtain ⟨rest2, hd⟩ := Option.isSome_iff_exists.mp (peekSig_drain_isSome hg2.2)
          rw [goFull_close s c rest rest2 hcom hg2.1 hg2.2 hd] at htr ⊢
          refine ih rest2 (by have := drain_length hd; omega) _ ?_ ?_
          · exact htr _ (List.mem_cons_of_mem _ (self_mem_goFull_states _ rest2))
          · intro s2 hs2
            exact htr s2 (List.mem_cons_of_mem _ hs2)
        · rw [goFull_discard s c rest hcom hg1 hg2] at htr ⊢
          refine ih rest hrest s hcom ?_
          intro s2 hs2
          exact htr s2 (List.mem_cons_of_mem _ hs2)

/-- Once inside a comment, as long as the scanner never returns to plain
text, nothing at all is written to the sink. -/
theorem goFull_comment_silent (s : ScanState) (l : List Char)
    (hcom : s.in_comment = true)
    (htr : ∀ s2 ∈ (goFull s l).2, s2.in_comment = true) :
    (goFull s l).1 = some [] :=
  goFull_comment_silent_aux l.length l (Nat.le_refl _) s hcom htr

/-- Auxiliary form of the depth invariant, with an explicit bound for the
strong induction on the length of the remaining input. -/
theorem goFull_states_inv_aux :
    ∀ (n : Nat) (l : List Char), l.length ≤ n → ∀ (s : ScanState),
      0 ≤ s.inner_comment_count →
      (s.in_comment = false → s.inner_comment_count = 0) →
      ∀ s2 ∈ (goFull s l).2,
        0 ≤ s2.inner_comment_count ∧
          (s2.in_comment = false → s2.inner_comment_count = 0) := by
  intro n
  induction n with
  | zero =>
    intro l hl s hpos hzero s2 hs2
    have hnil : l = [] := List.eq_nil_of_length_eq_zero (Nat.le_zero.mp hl)
    subst hnil
    rw [goFull_nil] at hs2
    simp at hs2
    subst hs2
    exact ⟨hpos, hzero⟩
  | succ n ih =>
    intro l hl s hpos hzero s2 hs2
    cases l with
    | nil =>
      rw [goFull_nil] at hs2
      simp at hs2
      subst hs2
      exact ⟨hpos, hzero⟩
    | cons c rest =>
      have hrest : rest.length ≤ n := by
        simp only [List.length_cons] at hl
        omega
      by_cases hcom : s.in_comment = true
      · by_cases hg1 : c = '/' ∧ peekSig rest = some '*'
        · obtain ⟨rest2, hd⟩ := Option.isSome_iff_exists.mp (peekSig_drain_isSome hg1.2)
          rw [goFull_inner_open s c rest rest2 hcom hg1.1 hg1.2 hd] at hs2
          rcases List.mem_cons.mp hs2 with hs2 | hs2
          · subst hs2; exact ⟨hpos, hzero⟩
          · refine ih rest2 (by have := drain_length hd; omega)
              { s with inner_comment_count := s.inner_comment_count + 1 } ?_ ?_ s2 hs2
            · show 0 ≤ s.inner_comment_count + 1
              omega
            · intro hfalse
              have hff : s.in_comment = false := hfalse
              rw [hcom] at hff
              cases hff
        · by_cases hg2 : c = '*' ∧ peekSig rest = some '/'
          · obtain ⟨rest2, hd⟩ := Option.isSome_iff_exists.mp (peekSig_drain_isSome hg2.2)
            rw [goFull_close s c rest rest2 hcom hg2.1 hg2.2 hd] at hs2
            rcases List.mem_cons.mp hs2 with hs2 | hs2
            · subst hs2; exact ⟨hpos, hzero⟩
            · by_cases hdec : s.inner_comment_count > 0
              · rw [if_pos hdec] at hs2
                refine ih rest2 (by have := drain_length hd; omega)
                  { s with inner_comment_count := s.inner_comment_count - 1 } ?_ ?_ s2 hs2
                · show 0 ≤ s.inner_comment_count - 1
                  omega
                · intro hfalse
                  have hff : s.in_comment = false := hfalse
                  rw [hcom] at hff
                  cases hff
              · rw [if_neg hdec] at hs2
                refine ih rest2 (by have := drain_length hd; omega)
                  { s with in_comment := false } hpos ?_ s2 hs2
                intro _
                show s.inner_comment_count = 0
                omega
          · rw [goFull_discard s c rest hcom hg1 hg2] at hs2
            rcases List.mem_cons.mp hs2 with hs2 | hs2
            · subst hs2; exact ⟨hpos, hzero⟩
            · exact ih rest hrest s hpos hzero s2 hs2
      · have hcom2 : s.in_comment = false := by simpa using hcom
        by_cases hg1 : c = '/' ∧ peekSig rest = some '*'
        · obtain ⟨rest2, hd⟩ := Option.isSome_iff_exists.mp (peekSig_drain_isSome hg1.2)
          rw [goFull_open s c rest rest2 hcom2 hg1.1 hg1.2 hd] at hs2
          rcases List.mem_cons.mp hs2 with hs2 | hs2
          · subst hs2; exact ⟨hpos, hzero⟩
          · refine ih rest2 (by have := drain_length hd; omega)
              { s with in_comment := true } hpos ?_ s2 hs2
            intro hfalse
            have hff : (true : Bool) = false := hfalse
            cases hff
        · by_cases hw : (isBreakChar c && s.last_char_was_newline) = true
          · rw [goFull_suppress s c rest hcom2 hg1 hw] at hs2
            rcases List.mem_cons.mp hs2 with hs2 | hs2
            · subst hs2; exact ⟨hpos, hzero⟩
            · exact ih rest hrest
                { s with last_char_was_newline := isBreakChar c } hpos hzero s2 hs2
          · have hw2 : (isBreakChar c && s.last_char_was_newline) = false := by
              simpa using hw
            rw [goFull_emit s c rest hcom2 hg1 hw2] at hs2
            rcases List.mem_cons.mp hs2 with hs2 | hs2
            · subst hs2; exact ⟨hpos, hzero⟩
            · exact ih rest hrest
                { s with last_char_was_newline := isBreakChar c } hpos hzero s2 hs2

/-- The depth invariant over every state of a run: the inner-comment
counter stays non-negative, and outside comment mode it is zero. -/
theorem goFull_states_inv (s : ScanState) (l : List Char)
    (hpos : 0 ≤ s.inner_comment_count)
    (hzero : s.in_comment = false → s.inner_comment_count = 0) :
    ∀ s2 ∈ (goFull s l).2,
      0 ≤ s2.inner_comment_count ∧
        (s2.in_comment = false → s2.inner_comment_count = 0) :=
  goFull_states_inv_aux l.length l (Nat.le_refl _) s hpos hzero

/-- The echo lemma: outside comments, on input with no scanner-detectable
comment opener, no two adjacent break-class characters, and (when the
last-was-newline flag starts true) no leading break-class character, the
scanner copies its input to the sink verbatim. -/
theorem goFull_echo :
    ∀ (l : List Char) (s : ScanState), s.in_comment = false →
      noOpener l = true → noConsecBreak l = true →
      (s.last_char_was_newline = true → headNotBreak l = true) →
      (goFull s l).1 = some l := by
  intro l
  induction l with
  | nil =>
    intro s hcom hop hcb hhd
    rw [goFull_nil]
  | cons c rest ih =>
    intro s hcom hop hcb hhd
    have hop2 : noOpener rest = true := by
      simp only [noOpener, Bool.and_eq_true] at hop
      exact hop.2
    have hg1 : ¬(c = '/' ∧ peekSig rest = some '*') := by
      rintro ⟨hc, hn⟩
      subst hc
      simp only [noOpener, if_pos rfl, Bool.and_eq_true, hn] at hop
      simp at hop
    have hcb2 : noConsecBreak rest = true := by
      cases rest with
      | nil => rfl
      | cons b t =>
        simp only [noConsecBreak, Bool.and_eq_true] at hcb
        exact hcb.2
    have hw : (isBreakChar c && s.last_char_was_newline) = false := by
      cases hlast : s.last_char_was_newline with
      | false => simp
      | true =>
        have hh := hhd hlast
        simp only [headNotBreak] at hh
        have hbc : isBreakChar c = false := by simpa using hh
        simp [hbc]
    rw [goFull_emit s c rest hcom hg1 hw]
    have hrec : (goFull { s with last_char_was_newline := isBreakChar c } rest).1
        = some rest := by
      refine ih { s with last_char_was_newline := isBreakChar c } hcom hop2 hcb2 ?_
      intro hlast2
      have hbc : isBreakChar c = true := hlast2
      cases rest with
      | nil => rfl
      | cons b t =>
        simp only [noConsecBreak, Bool.and_eq_true] at hcb
        have hnb := hcb.1
        rw [hbc] at hnb
        simp only [headNotBreak]
        simpa using hnb
    rw [hrec]
    rfl

/-- Equation of the read loop at end of file. -/
theorem scanLoop_eq_none {fs fs2 : FileState} (h : fread1 fs = (none, fs2)) :
    scanLoop fs = (none, fs2) := by
  rw [scanLoop]
  split
  · rename_i fs3 heq
    rw [h] at heq
    cases heq
    rfl
  · rename_i c2 fs3 heq
    rw [h] at heq
    simp at heq

/-- Equation of the read loop on a whitespace character: skip it and go on
from the advanced state. -/
theorem scanLoop_eq_skip {fs : FileState} {c : Char} {fs2 : FileState}
    (h : fread1 fs = (some c, fs2)) (hs : isSkipChar c = true) :
    scanLoop fs = scanLoop fs2 := by
  rw [scanLoop]
  split
  · rename_i fs3 heq
    rw [h] at heq
    simp at heq
  · rename_i c2 fs3 heq
    rw [h] at heq
    simp only [Prod.mk.injEq, Option.some.injEq] at heq
    obtain ⟨rfl, rfl⟩ := heq
    rw [if_pos hs]

/-- Equation of the read loop on a significant character: stop and return
it with the advanced state. -/
theorem scanLoop_eq_stop {fs : FileState} {c : Char} {fs2 : FileState}
    (h : fread1 fs = (some c, fs2)) (hs : isSkipChar c = false) :
    scanLoop fs = (some c, fs2) := by
  rw [scanLoop]
  split
  · rename_i fs3 heq
    rw [h] at heq
    simp at heq
  · rename_i c2 fs3 heq
    rw [h] at heq
    simp only [Prod.mk.injEq, Option.some.injEq] at heq
    obtain ⟨rfl, rfl⟩ := heq
    rw [if_neg (by simp [hs])]

/-- The read loop of `get_next_char` never changes the file contents. -/
theorem scanLoop_content : ∀ (fs : FileState), (scanLoop fs).2.content = fs.content := by
  intro fs
  induction fs using scanLoop.induct with
  | case1 fs fs2 h =>
    rw [scanLoop_eq_none h]
    rw [(fread1_none h).1]
  | case2 fs c fs2 h hskip ih =>
    rw [scanLoop_eq_skip h hskip, ih, (fread1_some h).1]
  | case3 fs c fs2 h hskip =>
    have hs2 : isSkipChar c = false := by simpa using hskip
    rw [scanLoop_eq_stop h hs2, (fread1_some h).1]

/-- The read loop of `get_next_char` finds exactly the next significant
character of the list model: the character `peekSig` computes on the part
of the contents at and after the cursor. -/
theorem scanLoop_eq_peekSig :
    ∀ (fs : FileState), (scanLoop fs).1 = peekSig (fs.content.drop fs.pos) := by
  intro fs
  induction fs using scanLoop.induct with
  | case1 fs fs2 h =>
    rw [scanLoop_eq_none h]
    rw [(fread1_none h).2]
    rfl
  | case2 fs c fs2 h hskip ih =>
    obtain ⟨hfs2, hdrop, _⟩ := fread1_some h
    rw [scanLoop_eq_skip h hskip, ih, hfs2, hdrop]
    simp [peekSig, hskip]
  | case3 fs c fs2 h hskip =>
    have hs2 : isSkipChar c = false := by simpa using hskip
    obtain ⟨hfs2, hdrop, _⟩ := fread1_some h
    rw [scanLoop_eq_stop h hs2, hdrop]
    simp [peekSig, hs2]

/-- The character `get_next_char` returns agrees with the list-model peek
applied to the contents at and after the cursor, tying the two models of
the source together. -/
theorem getNextChar_eq_peekSig (fs : FileState) :
    (getNextChar fs).1 = peekSig (fs.content.drop fs.pos) :=
  scanLoop_eq_peekSig fs

/-- Claim C1, counterexample to the literal statement: the input consisting
of a line feed then the letter a contains no slash-star or star-slash
character sequence and no two consecutive line breaks, yet `strip` does not
reproduce it: the leading line feed is suppressed because the
last-was-newline flag starts true. -/
theorem claim1_counterexample :
    stripRun ("\na".toList) = some ("a".toList) ∧
      stripRun ("\na".toList) ≠ some ("\na".toList) := by
  constructor
  · simp [stripRun, stripInit, goFull, peekSig, drain, isSkipChar, isBreakChar]
  · simp [stripRun, stripInit, goFull, peekSig, drain, isSkipChar, isBreakChar]

/-- Claim C1, amended: for every input whose first character is not in the
break class of the source regex (carriage return, line feed, or bar), in
which no two adjacent characters are both in that break class, and in which
no slash has a star as its next significant character in the sense of the
peek (so no comment opener is detected, even split by whitespace), `strip`
writes output identical to the input. -/
theorem claim1_no_comment_echo (l : List Char)
    (h1 : headNotBreak l = true) (h2 : noConsecBreak l = true)
    (h3 : noOpener l = true) : stripRun l = some l :=
  goFull_echo l stripInit rfl h3 h2 (fun _ => h1)

/-- Concrete instance of the amended claim C1 at the input a b line-feed
c d, whose hypotheses hold by computation. -/
theorem claim1_no_comment_echo_witness :
    headNotBreak ("ab\ncd".toList) = true ∧ noConsecBreak ("ab\ncd".toList) = true ∧
      noOpener ("ab\ncd".toList) = true ∧
      stripRun ("ab\ncd".toList) = some ("ab\ncd".toList) :=
  ⟨by decide, by decide, by decide,
    claim1_no_comment_echo ("ab\ncd".toList) (by decide) (by decide) (by decide)⟩

/-- Claim C2, evaluating the code at the failing input: the bar character
is in the break class of the regex (its class contains a literal bar), so
after an emitted line feed the bar of the input a line-feed bar is
suppressed at depth 0, although the claim says only carriage return and
line feed are classified as line breaks. -/
theorem claim2_bar_suppressed_at_depth_zero :
    isBreakChar '|' = true ∧
      stripRun ("a\n|".toList) = some ("a\n".toList) := by
  constructor
  · rfl
  · simp [stripRun, stripInit, goFull, peekSig, drain, isSkipChar, isBreakChar]

/-- Claim C3, evaluating the code at the failing input: the whitespace
class of the peek regex contains a literal bar, so on a file containing a
bar then the letter a, `get_next_char` skips the bar, which is not a
whitespace character, and returns the letter a. -/
theorem claim3_peek_skips_bar :
    isSkipChar '|' = true ∧
      (getNextChar ⟨"|a".toList, 0⟩).1 = some 'a' := by
  constructor
  · rfl
  · simp [getNextChar, scanLoop, fread1, isSkipChar]

/-- Claim C4: for every finite input and every scan state, the run
produces an output (the drain loops, entered only when the peek has seen
the sought delimiter ahead, never run forever), and once inside a comment,
if the scan never returns to plain text, nothing at all is emitted. -/
theorem claim4_strip_terminates :
    (∀ (s : ScanState) (l : List Char), ((goFull s l).1).isSome) ∧
      (∀ (s : ScanState) (l : List Char), s.in_comment = true →
        (∀ s2 ∈ (goFull s l).2, s2.in_comment = true) →
        (goFull s l).1 = some []) :=
  ⟨fun s l => goFull_isSome s l,
    fun s l hcom htr => goFull_comment_silent s l hcom htr⟩

/-- Concrete instance of claim C4: starting inside a comment on the input
x y z, the run stays in comment mode throughout, terminates, and emits
nothing. -/
theorem claim4_strip_terminates_witness :
    ((goFull ⟨true, 0, true⟩ ("xyz".toList)).1).isSome = true ∧
      (goFull ⟨true, 0, true⟩ ("xyz".toList)).1 = some [] := by
  have htr : ∀ s2 ∈ (goFull ⟨true, 0, true⟩ ("xyz".toList)).2, s2.in_comment = true := by
    intro s2 hs2
    simp [goFull, peekSig, drain, isSkipChar, isBreakChar] at hs2
    rw [hs2]
  exact ⟨claim4_strip_terminates.1 ⟨true, 0, true⟩ ("xyz".toList),
    claim4_strip_terminates.2 ⟨true, 0, true⟩ ("xyz".toList) rfl htr⟩

/-- Claim C5: on the nested-comment input, the inner opener and closer
only adjust the nesting count and the comment ends at the second closer,
so exactly the two letters around the comment are written. -/
theorem claim5_nested_comments :
    stripRun ("a/*outer/*inner*/still-outer*/b".toList) = some ("ab".toList) := by
  simp [stripRun, stripInit, goFull, peekSig, drain, isSkipChar, isBreakChar]

/-- Claim C6: over every state of every run started from the initial
state, the inner-comment counter is a non-negative integer, it is zero
whenever the scanner is in plain-text mode, and the modelled comment depth
is zero exactly in plain-text mode. -/
theorem claim6_depth_invariant (l : List Char) :
    ∀ s2 ∈ stripStates l,
      0 ≤ s2.inner_comment_count ∧
        (s2.in_comment = false → s2.inner_comment_count = 0) ∧
        (inCommentDepth s2 = 0 ↔ s2.in_comment = false) := by
  intro s2 hs2
  have h := goFull_states_inv stripInit l (by decide) (fun _ => rfl) s2 hs2
  refine ⟨h.1, h.2, ?_, ?_⟩
  · intro hd
    by_contra hcf
    have hct : s2.in_comment = true := by
      revert hcf
      cases s2.in_comment <;> simp
    unfold inCommentDepth at hd
    rw [hct] at hd
    simp at hd
    have h1 := h.1
    omega
  · intro hcf
    unfold inCommentDepth
    rw [hcf]
    simp

/-- Concrete instance of claim C6 at the initial state of the run on the
single-letter input a. -/
theorem claim6_depth_invariant_witness :
    stripInit ∈ stripStates ("a".toList) ∧
      (0 ≤ stripInit.inner_comment_count ∧
        (stripInit.in_comment = false → stripInit.inner_comment_count = 0) ∧
        (inCommentDepth stripInit = 0 ↔ stripInit.in_comment = false)) := by
  have hm : stripInit ∈ stripStates ("a".toList) := by
    simp [stripStates, stripInit, goFull, peekSig, drain, isSkipChar, isBreakChar]
  exact ⟨hm, claim6_depth_invariant ("a".toList) stripInit hm⟩

/-- Claim C7: an opener with no closer comments out the rest of the input;
on the input a slash-star c o m m e n t, only the letter a is written and
the run completes with an output. -/
theorem claim7_unterminated_comment :
    stripRun ("a/*comment".toList) = some ("a".toList) := by
  simp [stripRun, stripInit, goFull, peekSig, drain, isSkipChar, isBreakChar]

/-- Claim C8: `get_next_char` returns the file to the position remembered
before the peek, so the state after the peek is the state before it and
the skipped characters remain available to the main loop. -/
theorem claim8_peek_preserves_cursor (fs : FileState) : (getNextChar fs).2 = fs := by
  have hc := scanLoop_content fs
  cases fs with
  | mk content pos =>
    show (⟨(scanLoop ⟨content, pos⟩).2.content, pos⟩ : FileState) = ⟨content, pos⟩
    rw [show (scanLoop ⟨content, pos⟩).2.content = content from hc]

/-- Claim C9: the scan starts with the last-was-newline flag true, so the
two leading line feeds of the input line-feed line-feed a are suppressed
and only the letter a is written. -/
theorem claim9_leading_breaks :
    stripInit.last_char_was_newline = true ∧
      stripRun ("\n\na".toList) = some ("a".toList) := by
  constructor
  · rfl
  · simp [stripRun, stripInit, goFull, peekSig, drain, isSkipChar, isBreakChar]

/-- Claim C10: delimiter detection uses the whitespace-skipping peek, so a
slash and star separated by a space still open a comment and a star and
slash separated by a space still close it: the input a slash space star x
star space slash b produces exactly the letters a b. -/
theorem claim10_spread_delimiters :
    stripRun ("a/ *x* /b".toList) = some ("ab".toList) := by
  simp [stripRun, stripInit, goFull, peekSig, drain, isSkipChar, isBreakChar]

end MiniCSS
